import Mathlib

/-!
Verification of the package-metadata extraction subsystem
(`HaikuPorter/PackageInfo.py`).

The Python source is shallowly embedded: strings are `List Char`,
the two regular expressions are implemented as deterministic matching
functions (their backtracking behaviour is analysed in the doc comments),
the external inspection command and the filesystem are parameters, and the
pickle-backed cache file is a list of records followed by a marker that
says how the trailing bytes behave when one more record is read.
-/

set_option maxHeartbeats 1000000

/-- Strings of the Python source, embedded as lists of characters. -/
abbrev Str := List Char

/-- Python's `\s` character class for 8-bit strings:
space, tab, newline, carriage return, vertical tab, form feed. -/
def isPySpace (c : Char) : Bool :=
  c = ' ' || c = '\t' || c = '\n' || c = '\r' || c = '\x0b' || c = '\x0c'

/-- The operator characters of the `requires` grammar: the class `[=!<>]`. -/
def isOpChar (c : Char) : Bool :=
  c = '=' || c = '!' || c = '<' || c = '>'

/-- Python `str.lstrip()`: drop leading whitespace. -/
def pyLStrip (s : Str) : Str := s.dropWhile isPySpace

/-- Python `str.rstrip()`: drop trailing whitespace. -/
def pyRStrip (s : Str) : Str := (s.reverse.dropWhile isPySpace).reverse

/-- Python `str.strip()`: drop whitespace on both ends. -/
def pyStrip (s : Str) : Str := pyRStrip (pyLStrip s)

/-- Python `str.endswith(suffix)`. -/
def pyEndsWith (s suffix : Str) : Bool :=
  if suffix.length ≤ s.length then
    decide (s.drop (s.length - suffix.length) = suffix)
  else false

/-- Python slice index resolution: a negative index counts from the end,
and the result is clamped to `[0, n]`. -/
def pyIdx (n : Nat) (i : Int) : Nat :=
  min n (Int.toNat (if i < 0 then (n : Int) + i else i))

/-- Python `s[i:j]` (for the index forms the source uses). -/
def pySlice (s : Str) (i j : Int) : Str :=
  (s.take (pyIdx s.length j)).drop (pyIdx s.length i)

/-- Python `str.rfind(c)` for a single-character needle: the largest index
holding `c`, or `-1` when `c` does not occur. -/
def rfindChar (c : Char) : Str → Int
  | [] => -1
  | d :: rest =>
    let r := rfindChar c rest
    if r ≥ 0 then r + 1 else if d = c then 0 else -1

/-- Python `str.rfind(xy)` for a two-character needle: the largest index
where the pair `x, y` occurs consecutively, or `-1`. -/
def rfind2 (x y : Char) : Str → Int
  | [] => -1
  | [_] => -1
  | d :: e :: rest =>
    let r := rfind2 x y (e :: rest)
    if r ≥ 0 then r + 1 else if d = x ∧ e = y then 0 else -1

/-- `true` iff the pair `x, y` occurs consecutively somewhere in the list. -/
def occurs2 (x y : Char) : Str → Bool
  | [] => false
  | [_] => false
  | d :: e :: rest => (d = x && e = y) || occurs2 x y (e :: rest)

/-- The character class of the first group of `versionPattern`,
`[^\s=]`. -/
def isNameChar (c : Char) : Bool := !isPySpace c && !(c = '=')

/-- `re.match` for `versionPattern = ([^\s=]+)\s*=\s*([^\s]+)`.

The regex is deterministic: group 1 is a maximal run of `[^\s=]`
characters, so shortening it places `\s*` or the literal `=` on a
character of the same class, which can match neither; likewise the two
`\s*` runs are maximal because the following atoms (`=` and `[^\s]`)
reject whitespace.  Hence the greedy-leftmost match is computed directly
with `takeWhile`/`dropWhile`. -/
def matchResolvable (s : Str) : Option (Str × Str) :=
  let g1 := s.takeWhile isNameChar
  if g1 = [] then none else
  match (s.dropWhile isNameChar).dropWhile isPySpace with
  | c :: r3 =>
    if c = '=' then
      let g2 := (r3.dropWhile isPySpace).takeWhile (fun c => !isPySpace c)
      if g2 = [] then none else some (g1, g2)
    else none
  | [] => none

/-- A parsed `provides` entry, mirroring class `Resolvable`:
`name`, optional exact `version`, optional `compatibleVersion` floor. -/
structure Resolvable where
  name : Str
  version : Option Str
  compatibleVersion : Option Str
deriving DecidableEq, Repr

/-- The compatibility-clause split at the top of `Resolvable.__init__`:
if the string ends with `)` and `rfind('>=') > 0`, the compatible
version is `string[versionIndex+2:-1].strip()` and the working text
becomes `string[:string.rfind('(')].rstrip()`; otherwise the pair is
`(None, string)`. -/
def compatSplit (s : Str) : Option Str × Str :=
  if pyEndsWith s [')'] then
    if rfind2 '>' '=' s > 0 then
      (some (pyStrip (pySlice s (rfind2 '>' '=' s + 2) (-1))),
       pyRStrip (pySlice s 0 (rfindChar '(' s)))
    else (none, s)
  else (none, s)

/-- `Resolvable.__init__`: split off the compatibility clause, then match
`versionPattern` against the working text, falling back to a name-only
value when the pattern does not match. -/
def mkResolvable (s : Str) : Resolvable :=
  match matchResolvable (compatSplit s).2 with
  | some (n, v) => ⟨n, some v, (compatSplit s).1⟩
  | none => ⟨(compatSplit s).2, none, (compatSplit s).1⟩

/-- `Resolvable.__str__`: `name[ = version][ (compatible >= floor)]`,
where a field is rendered only when it is present and non-empty
(Python truthiness). -/
def resolvableStr (r : Resolvable) : Str :=
  let s1 := r.name
  let s2 := match r.version with
    | some v => if v = [] then s1 else s1 ++ ' ' :: '=' :: ' ' :: v
    | none => s1
  match r.compatibleVersion with
  | some cv =>
    if cv = [] then s2
    else s2 ++ (" (compatible >= ".data ++ cv ++ [')'])
  | none => s2

/-- The character class of the first group of `expressionPattern`,
`[^\s=!<>]`. -/
def isExprNameChar (c : Char) : Bool := !isPySpace c && !isOpChar c

/-- `re.match` for `expressionPattern = ([^\s=!<>]+)\s*([=!<>]+)\s*([^\s]+)`.

Group 1 and the first `\s*` are maximal for the same reason as in
`matchResolvable`.  Group 2 (`[=!<>]+`) is greedy, and backtracking can
arise in exactly one situation: the whole remainder after the operator
run is whitespace, so `([^\s]+)` has nothing to match; then the engine
gives the last operator character back, `\s*` matches nothing (the next
character is that operator character), and group 3 becomes that single
character, which requires the operator run to have length at least 2.
In every other case the maximal runs succeed directly. -/
def matchExpression (s : Str) : Option (Str × Str × Str) :=
  let g1 := s.takeWhile isExprNameChar
  if g1 = [] then none else
  let r1 := (s.dropWhile isExprNameChar).dropWhile isPySpace
  let ops := r1.takeWhile isOpChar
  if ops = [] then none else
  let r2 := (r1.dropWhile isOpChar).dropWhile isPySpace
  let g3 := r2.takeWhile (fun c => !isPySpace c)
  if g3 = [] then
    if ops.length ≥ 2 then some (g1, ops.dropLast, ops.drop (ops.length - 1))
    else none
  else some (g1, ops, g3)

/-- A parsed `requires` entry, mirroring class `ResolvableExpression`:
`name`, optional comparison `operator` and `version`, and the `base`
flag. -/
structure ResolvableExpression where
  name : Str
  operator : Option Str
  version : Option Str
  base : Bool
deriving DecidableEq, Repr

/-- The literal suffix `" base"`. -/
def baseSuffix : Str := " base".data

/-- `ResolvableExpression.__init__`: match `expressionPattern` with a
name-only fallback; independently, `base` is set iff `ignoreBase` is
false and the original string ends with `" base"`. -/
def mkResolvableExpression (s : Str) (ignoreBase : Bool) : ResolvableExpression :=
  match matchExpression s with
  | some (n, o, v) => ⟨n, some o, some v, !ignoreBase && pyEndsWith s baseSuffix⟩
  | none => ⟨s, none, none, !ignoreBase && pyEndsWith s baseSuffix⟩

/-- `ResolvableExpression.__str__`: `name[ op version][ base]`. -/
def expressionStr (e : ResolvableExpression) : Str :=
  let s1 := e.name
  let s2 := match e.operator, e.version with
    | some o, some v => if o = [] then s1 else s1 ++ ' ' :: (o ++ ' ' :: v)
    | _, _ => s1
  if e.base then s2 ++ baseSuffix else s2

/-- Python 2 `str.splitlines()` : split on `\n`, `\r` and `\r\n`; a
trailing terminator does not produce a final empty line. -/
def splitLinesAux : Str → Str → List Str
  | [], acc => if acc = [] then [] else [acc.reverse]
  | '\r' :: '\n' :: rest, acc => acc.reverse :: splitLinesAux rest []
  | '\n' :: rest, acc => acc.reverse :: splitLinesAux rest []
  | '\r' :: rest, acc => acc.reverse :: splitLinesAux rest []
  | c :: rest, acc => splitLinesAux rest (c :: acc)

/-- Python 2 `str.splitlines()`. -/
def pySplitLines (s : Str) : List Str := splitLinesAux s []

/-- One attempt of the field regex `^\s*FIELD:\s*(\S+)` at a position of
the output (the suffix starting there).  Each `\s*` is maximal: the atom
after it (the field-name literal, resp. `\S`) rejects whitespace, so no
backtracking is possible.  Note that `\s` also matches newlines, so the
value may come from a later line. -/
def fieldLineMatch (fieldName s : Str) : Option Str :=
  let s1 := s.dropWhile isPySpace
  if (fieldName ++ [':']).isPrefixOf s1 then
    let s2 := (s1.drop (fieldName.length + 1)).dropWhile isPySpace
    let g := s2.takeWhile (fun c => !isPySpace c)
    if g = [] then none else some g
  else none

/-- The suffixes of `s` that start right after a `'\n'`, in order of
position.  With `re.MULTILINE`, `^` matches exactly at the start of the
string and at these positions. -/
def afterNewlines : Str → List Str
  | [] => []
  | c :: rest =>
    if c = '\n' then rest :: afterNewlines rest else afterNewlines rest

/-- `PackageInfo._extractOptionalField`:
`re.search('^\s*FIELD:\s*(\S+)', output, re.MULTILINE)` — the first
line-start position whose suffix matches, or `None`. -/
def extractOptionalField (out fieldName : Str) : Option Str :=
  (out :: afterNewlines out).findSome? (fieldLineMatch fieldName)

/-- Extracted package metadata, mirroring the attribute set a
`PackageInfo` object holds after `_parseFromHpkgOrPackageInfoFile`
(`modifiedTime` is `none` when the attribute was never set, i.e. for
non-archive sources). -/
structure PackageInfo where
  path : Str
  name : Str
  version : Str
  architecture : Str
  installPath : Option Str
  provides : List Resolvable
  requires : List ResolvableExpression
  buildRequires : List ResolvableExpression
  buildPrerequires : List ResolvableExpression
  modifiedTime : Option Nat
deriving DecidableEq, Repr

/-- Errors of the cache-loading loop: the only exception type the loop
catches is `EOFError`; any other exception escapes.  `corruptStream` is
a non-`EOFError` deserialization failure of the trailing record,
`missingTimeKey` the `KeyError` for an entry without a
`modifiedTime` key. -/
inductive CacheError
  | corruptStream
  | missingTimeKey
deriving DecidableEq, Repr

/-- Fatal extraction outcomes (`sysExit` calls and escaping
exceptions). -/
inductive ExtractError
  | missingMandatoryField (fieldName path : Str)
  | cacheLoadError (e : CacheError)
  | statError (path : Str)
deriving DecidableEq, Repr

/-- `provides:` lines of the command output, fed through
`Resolvable` after dropping the 9-character prefix and left whitespace
(each line is stripped first). -/
def providesOf (out : Str) : List Resolvable :=
  (pySplitLines out).filterMap (fun l =>
    if "provides:".data.isPrefixOf (pyStrip l)
    then some (mkResolvable (pyLStrip ((pyStrip l).drop 9))) else none)

/-- `requires:` lines of the command output, fed through
`ResolvableExpression` with `ignoreBase=True`. -/
def requiresOf (out : Str) : List ResolvableExpression :=
  (pySplitLines out).filterMap (fun l =>
    if "requires:".data.isPrefixOf (pyStrip l)
    then some (mkResolvableExpression (pyLStrip ((pyStrip l).drop 9)) true) else none)

/-- The pure part of `_parseFromHpkgOrPackageInfoFile` after the external
command ran: mandatory fields `name`, `version`, `architecture` (in that
order, each absence fatal), optional `install path`, and the
provides/requires scan.  `modifiedTime` is filled in later for archive
sources. -/
def parsePackageOutput (path out : Str) : Except ExtractError PackageInfo :=
  match extractOptionalField out "name".data with
  | none => .error (.missingMandatoryField "name".data path)
  | some n =>
  match extractOptionalField out "version".data with
  | none => .error (.missingMandatoryField "version".data path)
  | some v =>
  match extractOptionalField out "architecture".data with
  | none => .error (.missingMandatoryField "architecture".data path)
  | some a =>
  .ok ⟨path, n, v, a, extractOptionalField out "install path".data,
       providesOf out, requiresOf out, [], [], none⟩

/-- How the bytes after the last complete record of the cache file
behave when one more `pickle.load` is attempted: a clean end of file, a
truncated record that surfaces as `EOFError`, or a corrupt record that
surfaces as a different exception. -/
inductive StreamTail
  | eof
  | truncatedEof
  | corruptOther
deriving DecidableEq, Repr

/-- The class-level cache state: `hpkgCache` (`none` while still
uninitialized), the records of the on-disk cache file, and the behaviour
of its trailing bytes. -/
structure CacheState where
  hpkgCache : Option (List (Str × PackageInfo))
  cacheFile : List PackageInfo
  fileTail : StreamTail
deriving DecidableEq, Repr

/-- Python-dict association-list lookup. -/
def lookupAssoc : List (Str × PackageInfo) → Str → Option PackageInfo
  | [], _ => none
  | (k, v) :: rest, p => if k = p then some v else lookupAssoc rest p

/-- Python-dict insertion: replace the binding of an existing key,
otherwise append. -/
def insertAssoc : List (Str × PackageInfo) → Str → PackageInfo → List (Str × PackageInfo)
  | [], k, v => [(k, v)]
  | (k', v') :: rest, k, v =>
    if k' = k then (k, v) :: rest else (k', v') :: insertAssoc rest k v

/-- The values of the in-memory mapping (`hpkgCache.itervalues()`). -/
def assocValues (m : List (Str × PackageInfo)) : List PackageInfo :=
  m.map (fun p => p.2)

/-- The entry-reading loop of `_initializeCache`: for each record, if
its file no longer exists or is newer than the snapshot, set `prune`
and skip it; otherwise store it under its path.  A record without a
`modifiedTime` key raises `KeyError` (not caught), which aborts the
loop; note the existence test short-circuits before that lookup.
Returns the mapping built so far, the prune flag, and the escaping
error if any. -/
def loadEntries (fs : Str → Option Nat) :
    List PackageInfo → List (Str × PackageInfo) → Bool →
    List (Str × PackageInfo) × Bool × Option CacheError
  | [], acc, prune => (acc, prune, none)
  | e :: rest, acc, prune =>
    match fs e.path with
    | none => loadEntries fs rest acc true
    | some m =>
      match e.modifiedTime with
      | none => (acc, prune, some .missingTimeKey)
      | some t =>
        if m > t then loadEntries fs rest acc true
        else loadEntries fs rest (insertAssoc acc e.path e) prune

/-- Result of `_initializeCache` on an existing cache file: the
in-memory mapping (as far as it was built), the cache file afterwards,
and the error that escaped, if any. -/
structure LoadOutcome where
  cache : List (Str × PackageInfo)
  file : List PackageInfo
  tail : StreamTail
  err : Option CacheError
deriving DecidableEq, Repr

/-- `PackageInfo._initializeCache` on an existing cache file: read
records until `pickle.load` raises `EOFError` (only that exception is
caught — `except EOFError: break`); validate each record against the
filesystem; if any record was discarded, rewrite the file with exactly
the retained values.  A non-`EOFError` trailing failure, or a
`KeyError` inside the loop, escapes before the rewrite step runs. -/
def initCache (fs : Str → Option Nat) (file : List PackageInfo)
    (tail : StreamTail) : LoadOutcome :=
  match loadEntries fs file [] false with
  | (c, _, some e) => ⟨c, file, tail, some e⟩
  | (c, prune, none) =>
    match tail with
    | .corruptOther => ⟨c, file, tail, some .corruptStream⟩
    | _ =>
      if prune then ⟨c, assocValues c, .eof, none⟩
      else ⟨c, file, tail, none⟩

/-- `PackageInfo._writeToCache`: overwrite the in-memory slot for the
entry's path (with a deep copy, i.e. an equal value) and append the
entry to the cache file. -/
def writeToCache (st : CacheState) (info : PackageInfo) : CacheState :=
  ⟨some (insertAssoc (st.hpkgCache.getD []) info.path info),
   st.cacheFile ++ [info], st.fileTail⟩

/-- The lazy cache construction at the top of
`_parseFromHpkgOrPackageInfoFile`: initialize the class-level cache on
first use; a load error escapes. -/
def ensureCache (fs : Str → Option Nat) (st : CacheState) :
    Except ExtractError CacheState :=
  match st.hpkgCache with
  | some _ => .ok st
  | none =>
    match (initCache fs st.cacheFile st.fileTail).err with
    | some e => .error (.cacheLoadError e)
    | none => .ok ⟨some (initCache fs st.cacheFile st.fileTail).cache,
                   (initCache fs st.cacheFile st.fileTail).file,
                   (initCache fs st.cacheFile st.fileTail).tail⟩

/-- Result of one extraction request: the metadata, the cache state
afterwards, and whether the external inspection command was invoked. -/
structure ExtractOutcome where
  info : PackageInfo
  state : CacheState
  invoked : Bool
deriving DecidableEq, Repr

/-- The suffix `".hpkg"`. -/
def hpkgSuffix : Str := ".hpkg".data

/-- The command-running branch of `_parseFromHpkgOrPackageInfoFile` for an
archive path: run the external command, parse its output, record the
file's modification time and write the result to the cache. -/
def runHpkgExtract (cmd : Str → Str) (fs : Str → Option Nat)
    (st1 : CacheState) (path : Str) : Except ExtractError ExtractOutcome :=
  match parsePackageOutput path (cmd path) with
  | .error e => .error e
  | .ok pinfo =>
    match fs path with
    | none => .error (.statError path)
    | some t =>
      .ok ⟨{ pinfo with modifiedTime := some t },
           writeToCache st1 { pinfo with modifiedTime := some t }, true⟩

/-- The archive branch after the cache is initialized: serve a hit
without running the command, otherwise run the command. -/
def lookupOrRun (cmd : Str → Str) (fs : Str → Option Nat)
    (st1 : CacheState) (path : Str) : Except ExtractError ExtractOutcome :=
  match lookupAssoc (st1.hpkgCache.getD []) path with
  | some entry => .ok ⟨entry, st1, false⟩
  | none => runHpkgExtract cmd fs st1 path

/-- `PackageInfo._parseFromHpkgOrPackageInfoFile`, with the external
command modelled as `cmd` (path ↦ captured output) and the filesystem as
`fs` (path ↦ modification time, `none` when absent).  For an `.hpkg`
path: initialize the cache if needed, serve a hit without running the
command, otherwise run the command, parse, record the file's
modification time and write to the cache.  For other (manifest) paths
the command always runs and the cache is untouched. -/
def parseFromHpkgOrPackageInfoFile (cmd : Str → Str) (fs : Str → Option Nat)
    (st : CacheState) (path : Str) : Except ExtractError ExtractOutcome :=
  if pyEndsWith path hpkgSuffix then
    match ensureCache fs st with
    | .error e => .error e
    | .ok st1 => lookupOrRun cmd fs st1 path
  else
    match parsePackageOutput path (cmd path) with
    | .error e => .error e
    | .ok pinfo => .ok ⟨pinfo, st, true⟩


/-- The retention condition of `_initializeCache`, as a predicate: an
entry is kept iff its file still exists and its current modification
time does not exceed the stored snapshot. -/
def keepEntry (fs : Str → Option Nat) (e : PackageInfo) : Bool :=
  match fs e.path, e.modifiedTime with
  | some m, some t => decide (m ≤ t)
  | _, _ => false

/-- Whitespace normalization in the sense of the specification's
round-trip property: the whitespace-delimited tokens, rejoined with
single spaces. -/
def wsTokensAux : Str → Str → List Str
  | [], acc => if acc = [] then [] else [acc.reverse]
  | c :: rest, acc =>
    if isPySpace c then
      if acc = [] then wsTokensAux rest [] else acc.reverse :: wsTokensAux rest []
    else wsTokensAux rest (c :: acc)

/-- Whitespace normalization: collapse all whitespace runs to single
spaces and strip both ends. -/
def wsNormalize (s : Str) : Str := List.intercalate [' '] (wsTokensAux s [])

/-- An empty metadata record (used only as a default when destructuring
a result that is known to be a success). -/
def emptyInfo : PackageInfo := ⟨[], [], [], [], none, [], [], [], [], none⟩

/-! ### Concrete sample data used by the witnesses -/

def wPath : Str := "pkg.hpkg".data

def wCmd : Str → Str := fun _ =>
  "name: n\nversion: 1\narchitecture: any\nprovides: foo = 1.0\nrequires: bar >= 2.0\n".data

def wFs : Str → Option Nat := fun p => if p = wPath then some 7 else none

def wState : CacheState := ⟨none, [], .eof⟩

def wOutcome : ExtractOutcome :=
  match parseFromHpkgOrPackageInfoFile wCmd wFs wState wPath with
  | .ok r => r
  | .error _ => ⟨emptyInfo, wState, true⟩

def wEntry : PackageInfo :=
  ⟨wPath, "n".data, "1".data, "any".data, none, [], [], [], [], some 7⟩

def wEntryB : PackageInfo :=
  ⟨"other.hpkg".data, "m".data, "2".data, "any".data, none, [], [], [], [], some 3⟩

def wStateB : CacheState := ⟨some [("other.hpkg".data, wEntryB)], [wEntryB], .eof⟩

def wOutNoVersion : Str := "name: n\narchitecture: x86\n".data

def wOutBase : Str := "name: n\nversion: 1\narchitecture: any\nrequires: foo base\n".data

def wInfoBase : PackageInfo :=
  match parsePackageOutput "p".data wOutBase with
  | .ok i => i
  | .error _ => emptyInfo

instance {ε α : Type} [DecidableEq ε] [DecidableEq α] : DecidableEq (Except ε α) :=
  fun a b =>
    match a, b with
    | .error e, .error f => decidable_of_iff (e = f) (by simp)
    | .ok x, .ok y => decidable_of_iff (x = y) (by simp)
    | .error _, .ok _ => .isFalse (by simp)
    | .ok _, .error _ => .isFalse (by simp)

/-! ### Concrete sanity checks of the two matchers -/

example : mkResolvable "name (compatible >= X)".data
    = ⟨"name".data, none, some "X".data⟩ := by decide
example : mkResolvable "foo = 1.0".data
    = ⟨"foo".data, some "1.0".data, none⟩ := by decide
example : mkResolvableExpression "name >= 2.0".data true
    = ⟨"name".data, some ">=".data, some "2.0".data, false⟩ := by decide
example : mkResolvableExpression "foo base".data false
    = ⟨"foo base".data, none, none, true⟩ := by decide
example : mkResolvableExpression "a >=".data true
    = ⟨"a".data, some ">".data, some "=".data, false⟩ := by decide
example : mkResolvable ">=(y)".data
    = ⟨">".data, some "(y)".data, none⟩ := by decide
example : mkResolvable "n = a>=b)".data
    = ⟨"n".data, some "a>=b".data, some "b".data⟩ := by decide
example : resolvableStr (mkResolvable "n = a>=b)".data)
    = "n = a>=b (compatible >= b)".data := by decide
example : mkResolvableExpression "f=oo base".data false
    = ⟨"f".data, some "=".data, some "oo".data, true⟩ := by decide

/-! ### Generic facts about the string primitives -/

theorem takeWhile_all {p : Char → Bool} : ∀ {l : Str},
    (∀ c ∈ l, p c = true) → l.takeWhile p = l := by
  intro l
  induction l with
  | nil => intro _; rfl
  | cons c t ih =>
    intro h
    rw [List.takeWhile_cons_of_pos (h c (by simp)),
      ih (fun d hd => h d (by simp [hd]))]

theorem takeWhile_headNeg {p : Char → Bool} {l : Str}
    (h : ∀ c, l.head? = some c → p c = false) : l.takeWhile p = [] := by
  cases l with
  | nil => rfl
  | cons c t => exact List.takeWhile_cons_of_neg (by simp [h c rfl])

theorem dropWhile_headNeg {p : Char → Bool} {l : Str}
    (h : ∀ c, l.head? = some c → p c = false) : l.dropWhile p = l := by
  cases l with
  | nil => rfl
  | cons c t => exact List.dropWhile_cons_of_neg (by simp [h c rfl])

theorem takeWhile_append_headNeg {p : Char → Bool} {l₁ l₂ : Str}
    (h₁ : ∀ c ∈ l₁, p c = true) (h₂ : ∀ c, l₂.head? = some c → p c = false) :
    (l₁ ++ l₂).takeWhile p = l₁ := by
  rw [List.takeWhile_append_of_pos h₁, takeWhile_headNeg h₂, List.append_nil]

theorem dropWhile_append_headNeg {p : Char → Bool} {l₁ l₂ : Str}
    (h₁ : ∀ c ∈ l₁, p c = true) (h₂ : ∀ c, l₂.head? = some c → p c = false) :
    (l₁ ++ l₂).dropWhile p = l₂ := by
  rw [List.dropWhile_append_of_pos h₁, dropWhile_headNeg h₂]

theorem pyEndsWith_iff {s t : Str} : pyEndsWith s t = true ↔ ∃ p, s = p ++ t := by
  constructor
  · intro h
    unfold pyEndsWith at h
    by_cases hle : t.length ≤ s.length
    · rw [if_pos hle] at h
      refine ⟨s.take (s.length - t.length), ?_⟩
      have hd := of_decide_eq_true h
      conv_lhs => rw [← List.take_append_drop (s.length - t.length) s]
      rw [hd]
    · rw [if_neg hle] at h
      exact absurd h (by simp)
  · rintro ⟨p, rfl⟩
    unfold pyEndsWith
    have hle : t.length ≤ (p ++ t).length := by simp
    rw [if_pos hle]
    apply decide_eq_true
    have hln : (p ++ t).length - t.length = p.length := by simp
    rw [hln, List.drop_left]

theorem pyEndsWith_intro (p t : Str) : pyEndsWith (p ++ t) t = true :=
  pyEndsWith_iff.mpr ⟨p, rfl⟩

theorem pyEndsWith_char_of_append {u v : Str} {c : Char} (hv : v ≠ [])
    (h : pyEndsWith (u ++ v) [c] = true) : pyEndsWith v [c] = true := by
  rcases pyEndsWith_iff.mp h with ⟨p, hp⟩
  have hg : (u ++ v).getLast? = some c := by
    rw [hp]; exact List.getLast?_concat _
  rw [List.getLast?_append] at hg
  cases hv2 : v.getLast? with
  | none => exact absurd (List.getLast?_eq_none_iff.mp hv2) hv
  | some a =>
    rw [hv2] at hg
    simp only [Option.or_some, Option.some.injEq] at hg
    rcases List.getLast?_eq_some_iff.mp hv2 with ⟨q, hq⟩
    exact pyEndsWith_iff.mpr ⟨q, by rw [hq, hg]⟩

theorem isPySpace_of_isOpChar {c : Char} (h : isOpChar c = true) :
    isPySpace c = false := by
  simp only [isOpChar, Bool.or_eq_true, decide_eq_true_eq] at h
  rcases h with ((h | h) | h) | h <;> subst h <;> decide

theorem isOpChar_of_isPySpace {c : Char} (h : isPySpace c = true) :
    isOpChar c = false := by
  simp only [isPySpace, Bool.or_eq_true, decide_eq_true_eq] at h
  rcases h with ((((h | h) | h) | h) | h) | h <;> subst h <;> decide

theorem occurs2_cons {x y c : Char} {l : Str} :
    occurs2 x y (c :: l) =
      ((decide (c = x) && (l.head?.any fun e => decide (e = y))) || occurs2 x y l) := by
  cases l <;> simp [occurs2]

theorem occurs2_sep : ∀ {n v : Str}, '=' ∉ n → occurs2 '>' '=' v = false →
    occurs2 '>' '=' (n ++ ' ' :: '=' :: ' ' :: v) = false := by
  intro n
  induction n with
  | nil =>
    intro v _ hv
    have h1 : occurs2 '>' '=' (' ' :: v) = false := by
      cases v with
      | nil => rfl
      | cons v₀ v' => simp [occurs2, hv]
    simp [occurs2, h1]
  | cons c n' ih =>
    intro v hn hv
    have hn' : '=' ∉ n' := fun h => hn (List.mem_cons_of_mem _ h)
    rw [List.cons_append, occurs2_cons, ih hn' hv]
    cases n' with
    | nil => simp
    | cons n₀ n'' =>
      have hne : ¬ (n₀ = '=') := fun h => hn (by simp [h])
      simp [hne]

theorem rfind2_eq_neg {x y : Char} : ∀ {l : Str},
    occurs2 x y l = false → rfind2 x y l = -1 := by
  intro l
  induction l with
  | nil => intro _; rfl
  | cons d t ih =>
    intro h
    cases t with
    | nil => rfl
    | cons e rest =>
      rw [occurs2] at h
      obtain ⟨h1, h2⟩ := Bool.or_eq_false_iff.mp h
      have hr := ih h2
      have hne : ¬ (d = x ∧ e = y) := by
        rintro ⟨rfl, rfl⟩; simp at h1
      simp only [rfind2, hr]
      norm_num [hne]

theorem rfind2_cons_pos {x y d : Char} {l : Str} (h : rfind2 x y l ≥ 0) :
    rfind2 x y (d :: l) = rfind2 x y l + 1 := by
  cases l with
  | nil => simp [rfind2] at h
  | cons e rest =>
    simp only [rfind2]
    rw [if_pos h]

theorem rfind2_append {x y : Char} {b : Str}
    (hyb : occurs2 x y (y :: b) = false) :
    ∀ (a : Str), rfind2 x y (a ++ x :: y :: b) = (a.length : Int) := by
  intro a
  induction a with
  | nil =>
    have hr := rfind2_eq_neg hyb
    simp only [List.nil_append, rfind2, hr]
    norm_num
  | cons c a' ih =>
    rw [List.cons_append, rfind2_cons_pos (by rw [ih]; positivity), ih]
    simp only [List.length_cons]
    push_cast
    ring

theorem rfindChar_eq_neg {c : Char} : ∀ {l : Str}, c ∉ l → rfindChar c l = -1 := by
  intro l
  induction l with
  | nil => intro _; rfl
  | cons d t ih =>
    intro h
    have h1 : ¬ (d = c) := fun hd => h (by simp [hd])
    have h2 : c ∉ t := fun ht => h (List.mem_cons_of_mem _ ht)
    simp only [rfindChar, ih h2]
    norm_num [h1]

theorem rfindChar_cons_pos {c d : Char} {l : Str} (h : rfindChar c l ≥ 0) :
    rfindChar c (d :: l) = rfindChar c l + 1 := by
  cases l with
  | nil => simp [rfindChar] at h
  | cons e rest =>
    show (if rfindChar c (e :: rest) ≥ 0 then rfindChar c (e :: rest) + 1
          else if d = c then 0 else -1) = rfindChar c (e :: rest) + 1
    rw [if_pos h]

theorem rfindChar_append {ch : Char} {d : Str} (hd : ch ∉ d) :
    ∀ (u : Str), rfindChar ch (u ++ ch :: d) = (u.length : Int) := by
  intro u
  induction u with
  | nil =>
    have hr := rfindChar_eq_neg hd
    simp only [List.nil_append, rfindChar, hr]
    norm_num
  | cons c u' ih =>
    rw [List.cons_append, rfindChar_cons_pos (by rw [ih]; positivity), ih]
    simp only [List.length_cons]
    push_cast
    ring

theorem pySlice_mid {a b : Str} {x y : Char} (hb : b ≠ []) :
    pySlice (a ++ x :: y :: b) ((a.length : Int) + 2) (-1) = b.dropLast := by
  have hb1 : 1 ≤ b.length := List.length_pos.mpr hb
  have hlen : (a ++ x :: y :: b).length = a.length + 2 + b.length := by
    simp; omega
  have hj : pyIdx (a ++ x :: y :: b).length (-1) = a.length + 2 + (b.length - 1) := by
    simp only [pyIdx, hlen]
    norm_num
    omega
  have hi : pyIdx (a ++ x :: y :: b).length ((a.length : Int) + 2) = a.length + 2 := by
    simp only [pyIdx, hlen]
    norm_num
    omega
  unfold pySlice
  rw [hi, hj]
  have hsplit : a ++ x :: y :: b = (a ++ [x, y]) ++ b := by simp
  have hl2 : (a ++ [x, y]).length = a.length + 2 := by simp
  rw [hsplit, ← hl2, List.take_append, List.drop_left]
  rw [List.dropLast_eq_take]

theorem pySlice_take_eq {c d : Str} {ch : Char} :
    pySlice (c ++ ch :: d) 0 ((c.length : Int)) = c := by
  have hi : pyIdx (c ++ ch :: d).length 0 = 0 := by
    simp only [pyIdx]
    rw [if_neg (by omega)]
    omega
  have hj : pyIdx (c ++ ch :: d).length ((c.length : Int)) = c.length := by
    simp only [pyIdx, List.length_append, List.length_cons]
    rw [if_neg (by omega)]
    omega
  unfold pySlice
  rw [hi, hj, List.drop_zero, List.take_left]

theorem headNeg_cons {p : Char → Bool} {c₀ : Char} {l : Str} (h : p c₀ = false) :
    ∀ c, (c₀ :: l).head? = some c → p c = false := by
  intro c hc
  rw [List.head?_cons, Option.some.injEq] at hc
  rw [← hc]
  exact h

theorem headNeg_of_all {p : Char → Bool} {l : Str} (h : ∀ c ∈ l, p c = false) :
    ∀ c, l.head? = some c → p c = false := by
  intro c hc
  cases l with
  | nil => cases hc
  | cons a t =>
    rw [List.head?_cons, Option.some.injEq] at hc
    exact hc ▸ h a (by simp)

/-! ### Behaviour of the matchers on structured inputs -/

theorem matchResolvable_structured {n v : Str}
    (hn : n ≠ []) (hnc : ∀ c ∈ n, isNameChar c = true)
    (hv : v ≠ []) (hvc : ∀ c ∈ v, isPySpace c = false) :
    matchResolvable (n ++ ' ' :: '=' :: ' ' :: v) = some (n, v) := by
  have hg1 : (n ++ ' ' :: '=' :: ' ' :: v).takeWhile isNameChar = n :=
    takeWhile_append_headNeg hnc (headNeg_cons (by decide))
  have hd1 : (n ++ ' ' :: '=' :: ' ' :: v).dropWhile isNameChar
      = ' ' :: '=' :: ' ' :: v :=
    dropWhile_append_headNeg hnc (headNeg_cons (by decide))
  have hd2 : (' ' :: '=' :: ' ' :: v).dropWhile isPySpace = '=' :: ' ' :: v := by
    rw [List.dropWhile_cons_of_pos (by decide), List.dropWhile_cons_of_neg (by decide)]
  have hd3 : (' ' :: v).dropWhile isPySpace = v := by
    rw [List.dropWhile_cons_of_pos (by decide)]
    exact dropWhile_headNeg (headNeg_of_all hvc)
  have hg2 : v.takeWhile (fun c => !isPySpace c) = v :=
    takeWhile_all (fun c hc => by simp [hvc c hc])
  simp only [matchResolvable]
  rw [hg1, hd1, hd2, if_neg hn]
  simp [hd3, hg2, hv]

theorem matchExpression_structured {n w1 o w2 v : Str}
    (hn : n ≠ []) (hnc : ∀ c ∈ n, isExprNameChar c = true)
    (hw1 : ∀ c ∈ w1, isPySpace c = true)
    (ho : o ≠ []) (hoc : ∀ c ∈ o, isOpChar c = true)
    (hw2 : ∀ c ∈ w2, isPySpace c = true)
    (hv : v ≠ []) (hvc : ∀ c ∈ v, isPySpace c = false)
    (hmax : w2 = [] → ∀ c, v.head? = some c → isOpChar c = false) :
    matchExpression (n ++ (w1 ++ (o ++ (w2 ++ v)))) = some (n, o, v) := by
  have hrest : ∀ c, (w1 ++ (o ++ (w2 ++ v))).head? = some c →
      isExprNameChar c = false := by
    intro c hc
    cases w1 with
    | cons w₀ w1' =>
      rw [List.cons_append, List.head?_cons, Option.some.injEq] at hc
      subst hc
      simp [isExprNameChar, hw1 w₀ (by simp)]
    | nil =>
      rw [List.nil_append] at hc
      cases o with
      | nil => exact absurd rfl ho
      | cons o₀ o' =>
        rw [List.cons_append, List.head?_cons, Option.some.injEq] at hc
        subst hc
        simp [isExprNameChar, hoc o₀ (by simp)]
  have hheado : ∀ c, (o ++ (w2 ++ v)).head? = some c → isPySpace c = false := by
    intro c hc
    cases o with
    | nil => exact absurd rfl ho
    | cons o₀ o' =>
      rw [List.cons_append, List.head?_cons, Option.some.injEq] at hc
      subst hc
      exact isPySpace_of_isOpChar (hoc o₀ (by simp))
  have hheadw2v : ∀ c, (w2 ++ v).head? = some c → isOpChar c = false := by
    intro c hc
    cases w2 with
    | cons x w2' =>
      rw [List.cons_append, List.head?_cons, Option.some.injEq] at hc
      subst hc
      exact isOpChar_of_isPySpace (hw2 x (by simp))
    | nil =>
      rw [List.nil_append] at hc
      exact hmax rfl c hc
  have hg1 : (n ++ (w1 ++ (o ++ (w2 ++ v)))).takeWhile isExprNameChar = n :=
    takeWhile_append_headNeg hnc hrest
  have hd1 : (n ++ (w1 ++ (o ++ (w2 ++ v)))).dropWhile isExprNameChar
      = w1 ++ (o ++ (w2 ++ v)) :=
    dropWhile_append_headNeg hnc hrest
  have hd2 : (w1 ++ (o ++ (w2 ++ v))).dropWhile isPySpace = o ++ (w2 ++ v) :=
    dropWhile_append_headNeg hw1 hheado
  have hops : (o ++ (w2 ++ v)).takeWhile isOpChar = o :=
    takeWhile_append_headNeg hoc hheadw2v
  have hd3 : (o ++ (w2 ++ v)).dropWhile isOpChar = w2 ++ v :=
    dropWhile_append_headNeg hoc hheadw2v
  have hd4 : (w2 ++ v).dropWhile isPySpace = v :=
    dropWhile_append_headNeg hw2 (headNeg_of_all hvc)
  have hg3 : v.takeWhile (fun c => !isPySpace c) = v :=
    takeWhile_all (fun c hc => by simp [hvc c hc])
  simp only [matchExpression]
  rw [hg1, hd1, hd2, hops, hd3, hd4, hg3, if_neg hn, if_neg ho, if_neg hv]

theorem matchExpression_none_of_noOp {s : Str}
    (hop : ∀ c ∈ s, isOpChar c = false) : matchExpression s = none := by
  by_cases hg : s.takeWhile isExprNameChar = []
  · simp only [matchExpression]
    rw [if_pos hg]
  · have hsub : ∀ c ∈ (s.dropWhile isExprNameChar).dropWhile isPySpace,
        isOpChar c = false := by
      intro c hc
      exact hop c ((List.dropWhile_sublist _).subset
        ((List.dropWhile_sublist _).subset hc))
    have hops : ((s.dropWhile isExprNameChar).dropWhile isPySpace).takeWhile isOpChar
        = [] := takeWhile_headNeg (headNeg_of_all hsub)
    simp only [matchExpression]
    rw [if_neg hg, hops, if_pos rfl]

theorem mkResolvableExpression_of_match {s n o v : Str} {ig : Bool}
    (h : matchExpression s = some (n, o, v)) :
    mkResolvableExpression s ig = ⟨n, some o, some v, !ig && pyEndsWith s baseSuffix⟩ := by
  unfold mkResolvableExpression
  rw [h]

theorem mkResolvableExpression_of_none {s : Str} {ig : Bool}
    (h : matchExpression s = none) :
    mkResolvableExpression s ig = ⟨s, none, none, !ig && pyEndsWith s baseSuffix⟩ := by
  unfold mkResolvableExpression
  rw [h]

theorem compatSplit_eq_id {s : Str}
    (h : pyEndsWith s [')'] = false ∨ rfind2 '>' '=' s ≤ 0) :
    compatSplit s = (none, s) := by
  unfold compatSplit
  rcases h with h | h
  · rw [if_neg (by simp [h])]
  · by_cases he : pyEndsWith s [')'] = true
    · rw [if_pos he, if_neg (by omega)]
    · rw [if_neg he]

theorem compatSplit_pos {a b c d : Str}
    (ha : a ≠ []) (hb : ∃ b', b = b' ++ [')'])
    (hnb : occurs2 '>' '=' b = false)
    (heq : a ++ '>' :: '=' :: b = c ++ '(' :: d)
    (hd : '(' ∉ d) :
    compatSplit (a ++ '>' :: '=' :: b) = (some (pyStrip b.dropLast), pyRStrip c) := by
  have hbne : b ≠ [] := by
    rcases hb with ⟨b', rfl⟩
    simp
  have hends : pyEndsWith (a ++ '>' :: '=' :: b) [')'] = true := by
    rcases hb with ⟨b', rfl⟩
    have hsh : a ++ '>' :: '=' :: (b' ++ [')']) = (a ++ '>' :: '=' :: b') ++ [')'] := by
      simp
    rw [hsh]
    exact pyEndsWith_intro _ _
  have hocc : occurs2 '>' '=' ('=' :: b) = false := by
    rw [occurs2_cons]
    simp [hnb]
  have hrf : rfind2 '>' '=' (a ++ '>' :: '=' :: b) = (a.length : Int) :=
    rfind2_append hocc a
  have hgt : rfind2 '>' '=' (a ++ '>' :: '=' :: b) > 0 := by
    rw [hrf]
    have := List.length_pos.mpr ha
    omega
  have hrc : rfindChar '(' (a ++ '>' :: '=' :: b) = (c.length : Int) := by
    rw [heq]
    exact rfindChar_append hd c
  unfold compatSplit
  rw [if_pos hends, if_pos hgt, hrf, hrc]
  rw [pySlice_mid hbne]
  rw [heq, pySlice_take_eq]

/-! ### Facts about the cache layer -/

theorem lookupAssoc_insertAssoc (m : List (Str × PackageInfo)) (k : Str)
    (v : PackageInfo) (p : Str) :
    lookupAssoc (insertAssoc m k v) p = if k = p then some v else lookupAssoc m p := by
  induction m with
  | nil => rfl
  | cons kv rest ih =>
    obtain ⟨k', v'⟩ := kv
    by_cases hk : k' = k
    · subst hk
      rw [insertAssoc, if_pos rfl]
      by_cases hp : k' = p
      · rw [lookupAssoc, if_pos hp, if_pos hp]
      · rw [lookupAssoc, if_neg hp, if_neg hp, lookupAssoc, if_neg hp]
    · rw [insertAssoc, if_neg hk]
      by_cases hp : k' = p
      · subst hp
        rw [lookupAssoc, if_pos rfl, if_neg (fun h => hk h.symm), lookupAssoc, if_pos rfl]
      · rw [lookupAssoc, if_neg hp, ih, lookupAssoc, if_neg hp]


theorem loadEntries_spec (fs : Str → Option Nat) :
    ∀ (l : List PackageInfo) (acc : List (Str × PackageInfo)) (prune : Bool),
    (∀ e ∈ l, e.modifiedTime ≠ none) →
    loadEntries fs l acc prune =
      ((l.filter (keepEntry fs)).foldl (fun a e => insertAssoc a e.path e) acc,
       (prune || l.any (fun e => !keepEntry fs e)), none) := by
  intro l
  induction l with
  | nil => intro acc prune _; simp [loadEntries]
  | cons e rest ih =>
    intro acc prune hwf
    have hwfr : ∀ x ∈ rest, x.modifiedTime ≠ none :=
      fun x hx => hwf x (List.mem_cons_of_mem _ hx)
    cases hmt : e.modifiedTime with
    | none => exact absurd hmt (hwf e (by simp))
    | some t =>
      cases hfs : fs e.path with
      | none =>
        have hk : keepEntry fs e = false := by
          unfold keepEntry
          rw [hfs]
        simp only [loadEntries, hfs]
        rw [ih acc true hwfr]
        simp [hk, List.filter_cons, List.any_cons]
      | some m =>
        by_cases hgt : m > t
        · have hk : keepEntry fs e = false := by
            unfold keepEntry
            rw [hfs, hmt]
            simp
            omega
          simp only [loadEntries, hfs, hmt]
          rw [if_pos hgt, ih acc true hwfr]
          simp [hk, List.filter_cons, List.any_cons]
        · have hk : keepEntry fs e = true := by
            unfold keepEntry
            rw [hfs, hmt]
            simp
            omega
          simp only [loadEntries, hfs, hmt]
          rw [if_neg hgt, ih (insertAssoc acc e.path e) prune hwfr]
          simp [hk, List.filter_cons, List.any_cons]

theorem lookup_foldl_insert :
    ∀ (l : List PackageInfo) (acc : List (Str × PackageInfo)) (p : Str),
    lookupAssoc (l.foldl (fun a e => insertAssoc a e.path e) acc) p =
      (l.reverse.find? (fun e => decide (e.path = p))).or (lookupAssoc acc p) := by
  intro l
  induction l with
  | nil => intro acc p; simp
  | cons e rest ih =>
    intro acc p
    rw [List.foldl_cons, ih, List.reverse_cons, List.find?_append,
      lookupAssoc_insertAssoc, Option.or_assoc]
    congr 1
    by_cases hp : e.path = p
    · rw [if_pos hp, List.find?_cons_of_pos _ (by simp [hp])]
      simp
    · rw [if_neg hp, List.find?_cons_of_neg _ (by simp [hp]), List.find?_nil]
      simp

/-- The in-memory mapping built by a load over well-formed records does
not depend on the trailing-bytes behaviour. -/
theorem initCache_cache (fs : Str → Option Nat) (file : List PackageInfo)
    (tail : StreamTail) (hwf : ∀ e ∈ file, e.modifiedTime ≠ none) :
    (initCache fs file tail).cache =
      (file.filter (keepEntry fs)).foldl (fun a e => insertAssoc a e.path e) [] := by
  unfold initCache
  rw [loadEntries_spec fs file [] false hwf]
  cases tail <;> by_cases hp : (false || file.any (fun e => !keepEntry fs e)) = true <;>
    simp [hp]

theorem initCache_err_none (fs : Str → Option Nat) (file : List PackageInfo)
    (tail : StreamTail) (hwf : ∀ e ∈ file, e.modifiedTime ≠ none)
    (htail : tail ≠ StreamTail.corruptOther) :
    (initCache fs file tail).err = none := by
  unfold initCache
  rw [loadEntries_spec fs file [] false hwf]
  cases tail with
  | corruptOther => exact absurd rfl htail
  | eof =>
    by_cases hp : (false || file.any (fun e => !keepEntry fs e)) = true <;> simp [hp]
  | truncatedEof =>
    by_cases hp : (false || file.any (fun e => !keepEntry fs e)) = true <;> simp [hp]

theorem initCache_file_dirty (fs : Str → Option Nat) (file : List PackageInfo)
    (tail : StreamTail) (hwf : ∀ e ∈ file, e.modifiedTime ≠ none)
    (htail : tail ≠ StreamTail.corruptOther)
    (hdirty : ∃ e ∈ file, keepEntry fs e = false) :
    (initCache fs file tail).file = assocValues (initCache fs file tail).cache := by
  have hany : file.any (fun e => !keepEntry fs e) = true := by
    rcases hdirty with ⟨e, he, hk⟩
    exact List.any_eq_true.mpr ⟨e, he, by simp [hk]⟩
  rw [initCache_cache fs file tail hwf]
  unfold initCache
  rw [loadEntries_spec fs file [] false hwf]
  cases tail with
  | corruptOther => exact absurd rfl htail
  | eof => simp [hany]
  | truncatedEof => simp [hany]

theorem initCache_file_untouched (fs : Str → Option Nat) (file : List PackageInfo)
    (tail : StreamTail) (hwf : ∀ e ∈ file, e.modifiedTime ≠ none)
    (htail : tail ≠ StreamTail.corruptOther)
    (hclean : ∀ e ∈ file, keepEntry fs e = true) :
    (initCache fs file tail).file = file := by
  have hany : file.any (fun e => !keepEntry fs e) = false := by
    rw [List.any_eq_false]
    intro e he
    simp [hclean e he]
  unfold initCache
  rw [loadEntries_spec fs file [] false hwf]
  cases tail with
  | corruptOther => exact absurd rfl htail
  | eof => simp [hany]
  | truncatedEof => simp [hany]

/-! ### Facts about the extraction pipeline -/

theorem parsePackageOutput_ok {path out : Str} {info : PackageInfo}
    (h : parsePackageOutput path out = .ok info) :
    info.path = path ∧ info.requires = requiresOf out ∧
    extractOptionalField out "name".data = some info.name ∧
    extractOptionalField out "version".data = some info.version ∧
    extractOptionalField out "architecture".data = some info.architecture := by
  unfold parsePackageOutput at h
  cases h1 : extractOptionalField out "name".data with
  | none => rw [h1] at h; cases h
  | some n =>
    rw [h1] at h
    cases h2 : extractOptionalField out "version".data with
    | none => rw [h2] at h; cases h
    | some v =>
      rw [h2] at h
      cases h3 : extractOptionalField out "architecture".data with
      | none => rw [h3] at h; cases h
      | some a =>
        rw [h3] at h
        have h4 := Except.ok.inj h
        rw [← h4]
        exact ⟨rfl, rfl, rfl, rfl, rfl⟩

theorem ensureCache_ok_some {fs : Str → Option Nat} {st st1 : CacheState}
    (h : ensureCache fs st = .ok st1) : ∃ m, st1.hpkgCache = some m := by
  unfold ensureCache at h
  split at h
  · rename_i m heq
    exact ⟨m, by rw [← Except.ok.inj h, heq]⟩
  · split at h
    · cases h
    · exact ⟨_, by rw [← Except.ok.inj h]⟩

theorem ensureCache_of_some {fs : Str → Option Nat} {st : CacheState}
    {m : List (Str × PackageInfo)} (h : st.hpkgCache = some m) :
    ensureCache fs st = .ok st := by
  unfold ensureCache
  rw [h]

/-- After a successful `.hpkg` extraction, the resulting cache state is
initialized and maps the path to the returned metadata. -/
theorem extract_ok_lookup {cmd : Str → Str} {fs : Str → Option Nat}
    {st : CacheState} {path : Str} {r : ExtractOutcome}
    (hp : pyEndsWith path hpkgSuffix = true)
    (h : parseFromHpkgOrPackageInfoFile cmd fs st path = .ok r) :
    ∃ m, r.state.hpkgCache = some m ∧ lookupAssoc m path = some r.info := by
  unfold parseFromHpkgOrPackageInfoFile at h
  rw [if_pos hp] at h
  split at h
  · cases h
  · rename_i st1 he
    obtain ⟨m, hm⟩ := ensureCache_ok_some he
    unfold lookupOrRun at h
    split at h
    · rename_i entry hl
      have h4 := Except.ok.inj h
      refine ⟨m, ?_, ?_⟩
      · rw [← h4]
        exact hm
      · rw [← h4]
        show lookupAssoc m path = some entry
        rw [hm, Option.getD_some] at hl
        exact hl
    · rename_i hl
      unfold runHpkgExtract at h
      split at h
      · cases h
      · rename_i pinfo hpo
        split at h
        · cases h
        · rename_i t hfs
          have h4 := Except.ok.inj h
          have hpath : pinfo.path = path := (parsePackageOutput_ok hpo).1
          rw [← h4]
          refine ⟨insertAssoc (st1.hpkgCache.getD [])
              ({ pinfo with modifiedTime := some t } : PackageInfo).path
              { pinfo with modifiedTime := some t }, rfl, ?_⟩
          rw [lookupAssoc_insertAssoc]
          have hpp : ({ pinfo with modifiedTime := some t } : PackageInfo).path = path :=
            hpath
          rw [hpp, if_pos rfl]

theorem mkResolvable_eq {s w : Str} {cv : Option Str} {n v : Str}
    (h1 : compatSplit s = (cv, w)) (h2 : matchResolvable w = some (n, v)) :
    mkResolvable s = ⟨n, some v, cv⟩ := by
  unfold mkResolvable
  rw [h1]
  simp [h2]

theorem mkResolvableExpression_ignoreBase (s : Str) :
    (mkResolvableExpression s true).base = false := by
  unfold mkResolvableExpression
  split <;> rfl


/-! ### The claims -/

/-- **C1.** For an archive (`.hpkg`) path whose file is unchanged between two
extractions in one process run, extracting the path twice yields
field-identical metadata both times, and the external inspection command is
not invoked by the second extraction: after any successful extraction of the
path, a repeat extraction from the resulting state returns exactly the first
result's metadata with `invoked = false` (served from the in-memory cache). -/
theorem c1_extract_twice_cached (cmd : Str → Str) (fs : Str → Option Nat)
    (st : CacheState) (path : Str) (r : ExtractOutcome)
    (hp : pyEndsWith path hpkgSuffix = true)
    (h : parseFromHpkgOrPackageInfoFile cmd fs st path = .ok r) :
    parseFromHpkgOrPackageInfoFile cmd fs r.state path
      = .ok ⟨r.info, r.state, false⟩ := by
  obtain ⟨m, hm, hl⟩ := extract_ok_lookup hp h
  unfold parseFromHpkgOrPackageInfoFile
  rw [if_pos hp, ensureCache_of_some hm]
  show lookupOrRun cmd fs r.state path = _
  unfold lookupOrRun
  rw [hm, Option.getD_some, hl]

theorem c1_extract_twice_cached_witness :
    pyEndsWith wPath hpkgSuffix = true ∧
    parseFromHpkgOrPackageInfoFile wCmd wFs wState wPath = .ok wOutcome ∧
    parseFromHpkgOrPackageInfoFile wCmd wFs wOutcome.state wPath
      = .ok ⟨wOutcome.info, wOutcome.state, false⟩ :=
  ⟨by decide, by decide,
   c1_extract_twice_cached wCmd wFs wState wPath wOutcome (by decide) (by decide)⟩

/-- **C7.** Each of `name`, `version`, `architecture` is mandatory for
archive/manifest extraction: if the command output provides no value for one
of them, parsing fails with `missingMandatoryField` identifying that field
(the first missing one, in the order name, version, architecture) and the
path, and a successful parse certifies that all three were present (no
partial result can be returned, as the result type is `Except`). -/
theorem c7_mandatory_fields (path out : Str) :
    (extractOptionalField out "name".data = none →
      parsePackageOutput path out
        = .error (.missingMandatoryField "name".data path)) ∧
    (extractOptionalField out "name".data ≠ none →
      extractOptionalField out "version".data = none →
      parsePackageOutput path out
        = .error (.missingMandatoryField "version".data path)) ∧
    (extractOptionalField out "name".data ≠ none →
      extractOptionalField out "version".data ≠ none →
      extractOptionalField out "architecture".data = none →
      parsePackageOutput path out
        = .error (.missingMandatoryField "architecture".data path)) ∧
    (∀ info, parsePackageOutput path out = .ok info →
      extractOptionalField out "name".data = some info.name ∧
      extractOptionalField out "version".data = some info.version ∧
      extractOptionalField out "architecture".data = some info.architecture) := by
  refine ⟨?_, ?_, ?_, ?_⟩
  · intro h1
    unfold parsePackageOutput
    rw [h1]
  · intro h1 h2
    obtain ⟨n, hn⟩ := Option.ne_none_iff_exists'.mp h1
    unfold parsePackageOutput
    rw [hn, h2]
  · intro h1 h2 h3
    obtain ⟨n, hn⟩ := Option.ne_none_iff_exists'.mp h1
    obtain ⟨v, hv⟩ := Option.ne_none_iff_exists'.mp h2
    unfold parsePackageOutput
    rw [hn, hv, h3]
  · intro info h
    exact ⟨(parsePackageOutput_ok h).2.2.1, (parsePackageOutput_ok h).2.2.2.1,
      (parsePackageOutput_ok h).2.2.2.2⟩


theorem c7_mandatory_fields_witness :
    extractOptionalField wOutNoVersion "name".data ≠ none ∧
    extractOptionalField wOutNoVersion "version".data = none ∧
    parsePackageOutput "p.hpkg".data wOutNoVersion
      = .error (.missingMandatoryField "version".data "p.hpkg".data) :=
  ⟨by decide, by decide,
   (c7_mandatory_fields "p.hpkg".data wOutNoVersion).2.1 (by decide) (by decide)⟩

/-- **C8.** Every constraint parsed from a `requires:` line of the command
output has `base = false`, whatever the line's content (the call passes
`ignoreBase=True`), including lines ending in " base". -/
theorem c8_requires_not_base (path out : Str) (info : PackageInfo)
    (h : parsePackageOutput path out = .ok info) :
    ∀ r ∈ info.requires, r.base = false := by
  intro r hr
  rw [(parsePackageOutput_ok h).2.1] at hr
  unfold requiresOf at hr
  rw [List.mem_filterMap] at hr
  obtain ⟨l, _, hfl⟩ := hr
  by_cases hpre : "requires:".data.isPrefixOf (pyStrip l)
  · rw [if_pos hpre, Option.some.injEq] at hfl
    rw [← hfl]
    exact mkResolvableExpression_ignoreBase _
  · rw [if_neg hpre] at hfl
    cases hfl


theorem c8_requires_not_base_witness :
    parsePackageOutput "p".data wOutBase = .ok wInfoBase ∧
    mkResolvableExpression "foo base".data true ∈ wInfoBase.requires ∧
    (mkResolvableExpression "foo base".data true).base = false :=
  ⟨by decide, by decide,
   c8_requires_not_base "p".data wOutBase wInfoBase (by decide) _ (by decide)⟩

/-- **C9.** `_writeToCache` appends the entry to the cache file (previous
file content is preserved as a prefix and the trailing bytes are untouched),
overwrites exactly the in-memory slot for the entry's path, and leaves the
in-memory binding of every other path unchanged. -/
theorem c9_put_frame (st : CacheState) (info : PackageInfo) :
    (writeToCache st info).cacheFile = st.cacheFile ++ [info] ∧
    (writeToCache st info).fileTail = st.fileTail ∧
    lookupAssoc ((writeToCache st info).hpkgCache.getD []) info.path = some info ∧
    ∀ p, p ≠ info.path →
      lookupAssoc ((writeToCache st info).hpkgCache.getD []) p
        = lookupAssoc (st.hpkgCache.getD []) p := by
  refine ⟨rfl, rfl, ?_, ?_⟩
  · show lookupAssoc (insertAssoc (st.hpkgCache.getD []) info.path info) info.path
      = some info
    rw [lookupAssoc_insertAssoc, if_pos rfl]
  · intro p hp
    show lookupAssoc (insertAssoc (st.hpkgCache.getD []) info.path info) p
      = lookupAssoc (st.hpkgCache.getD []) p
    rw [lookupAssoc_insertAssoc, if_neg (fun h => hp h.symm)]

theorem c9_put_frame_witness :
    (writeToCache wStateB wEntry).cacheFile = wStateB.cacheFile ++ [wEntry] ∧
    lookupAssoc ((writeToCache wStateB wEntry).hpkgCache.getD []) "other.hpkg".data
      = lookupAssoc (wStateB.hpkgCache.getD []) "other.hpkg".data :=
  ⟨(c9_put_frame wStateB wEntry).1,
   (c9_put_frame wStateB wEntry).2.2.2 "other.hpkg".data (by decide)⟩

/-- **C3 counterexample.** The load loop catches only the end-of-file
exception (`except EOFError: break`); a corrupt trailing record whose
deserialization surfaces as any other exception is signalled as an error,
not treated as end-of-stream — even though the same records with a clean
tail load without error. -/
theorem c3_corrupt_tail_cex :
    (initCache wFs [wEntry] .corruptOther).err = some CacheError.corruptStream ∧
    (initCache wFs [wEntry] .eof).err = none := by
  constructor <;> decide

/-- **C3 (amended).** A truncated trailing record that surfaces as
end-of-file is treated as end-of-stream, not an error: the load reports no
error and builds exactly the same in-memory mapping as a load of the same
records with a clean end of file, so every entry read before the truncation
remains usable. -/
theorem c3_truncated_tail_amended (fs : Str → Option Nat)
    (file : List PackageInfo)
    (hwf : ∀ e ∈ file, e.modifiedTime ≠ none) :
    (initCache fs file .truncatedEof).err = none ∧
    (initCache fs file .truncatedEof).cache = (initCache fs file .eof).cache := by
  refine ⟨initCache_err_none fs file _ hwf (by decide), ?_⟩
  rw [initCache_cache fs file _ hwf, initCache_cache fs file _ hwf]

theorem c3_truncated_tail_amended_witness :
    (initCache wFs [wEntry] .truncatedEof).err = none ∧
    (initCache wFs [wEntry] .truncatedEof).cache
      = (initCache wFs [wEntry] .eof).cache :=
  c3_truncated_tail_amended wFs [wEntry] (by decide)

/-- **C4.** On a readable cache file, the load keeps exactly the entries
whose file still exists with modification time not exceeding the stored
snapshot, keyed by path (for a duplicated path the last such entry wins);
it reports no error; if at least one entry was discarded the file is
rewritten to exactly the retained values of the mapping, and if none was
discarded the file is left untouched. -/
theorem c4_load_retention (fs : Str → Option Nat) (file : List PackageInfo)
    (tail : StreamTail)
    (hwf : ∀ e ∈ file, e.modifiedTime ≠ none)
    (htail : tail ≠ StreamTail.corruptOther) :
    (initCache fs file tail).err = none ∧
    (∀ p, lookupAssoc (initCache fs file tail).cache p =
      (file.filter (keepEntry fs)).reverse.find? (fun e => decide (e.path = p))) ∧
    ((∃ e ∈ file, keepEntry fs e = false) →
      (initCache fs file tail).file
        = assocValues (initCache fs file tail).cache) ∧
    ((∀ e ∈ file, keepEntry fs e = true) →
      (initCache fs file tail).file = file) := by
  refine ⟨initCache_err_none fs file tail hwf htail, ?_,
    initCache_file_dirty fs file tail hwf htail,
    initCache_file_untouched fs file tail hwf htail⟩
  intro p
  rw [initCache_cache fs file tail hwf, lookup_foldl_insert]
  simp [lookupAssoc]

theorem c4_load_retention_witness :
    (initCache wFs [wEntry, wEntryB] .eof).err = none ∧
    lookupAssoc (initCache wFs [wEntry, wEntryB] .eof).cache wPath = some wEntry ∧
    (initCache wFs [wEntry, wEntryB] .eof).file
      = assocValues (initCache wFs [wEntry, wEntryB] .eof).cache ∧
    (initCache wFs [wEntry, wEntryB] .eof).file = [wEntry] := by
  have h := c4_load_retention wFs [wEntry, wEntryB] .eof (by decide) (by decide)
  refine ⟨h.1, ?_, h.2.2.1 ⟨wEntryB, by decide, by decide⟩, ?_⟩
  · rw [h.2.1 wPath]
    decide
  · rw [h.2.2.1 ⟨wEntryB, by decide, by decide⟩]
    decide

/-- **C5.** ExpressionParser follows the requires grammar: for a text
decomposing as NAME (non-empty, no whitespace and none of `=!<>`), optional
whitespace, one-or-more operator characters from `=!<>`, optional
whitespace, and a non-empty whitespace-free VERSION (reading the parts
maximally: when no whitespace separates them, the version must not begin
with an operator character), the parser sets name, operator and version
from the three parts; and for a text the grammar does not match at all, the
whole text becomes the name with operator and version unset. -/
theorem c5_expression_grammar :
    (∀ (n w1 o w2 v : Str) (ig : Bool),
      n ≠ [] → (∀ c ∈ n, isExprNameChar c = true) →
      (∀ c ∈ w1, isPySpace c = true) →
      o ≠ [] → (∀ c ∈ o, isOpChar c = true) →
      (∀ c ∈ w2, isPySpace c = true) →
      v ≠ [] → (∀ c ∈ v, isPySpace c = false) →
      (w2 = [] → ∀ c, v.head? = some c → isOpChar c = false) →
      (mkResolvableExpression (n ++ w1 ++ o ++ w2 ++ v) ig).name = n ∧
      (mkResolvableExpression (n ++ w1 ++ o ++ w2 ++ v) ig).operator = some o ∧
      (mkResolvableExpression (n ++ w1 ++ o ++ w2 ++ v) ig).version = some v) ∧
    (∀ (s : Str) (ig : Bool), matchExpression s = none →
      (mkResolvableExpression s ig).name = s ∧
      (mkResolvableExpression s ig).operator = none ∧
      (mkResolvableExpression s ig).version = none) := by
  constructor
  · intro n w1 o w2 v ig hn hnc hw1 ho hoc hw2 hv hvc hmax
    have hassoc : n ++ w1 ++ o ++ w2 ++ v = n ++ (w1 ++ (o ++ (w2 ++ v))) := by
      simp
    have hme := matchExpression_structured hn hnc hw1 ho hoc hw2 hv hvc hmax
    rw [hassoc, mkResolvableExpression_of_match hme]
    exact ⟨rfl, rfl, rfl⟩
  · intro s ig h
    rw [mkResolvableExpression_of_none h]
    exact ⟨rfl, rfl, rfl⟩

theorem c5_expression_grammar_witness :
    (mkResolvableExpression "name >= 2.0".data true).name = "name".data ∧
    (mkResolvableExpression "name >= 2.0".data true).operator = some ">=".data ∧
    (mkResolvableExpression "name >= 2.0".data true).version = some "2.0".data ∧
    (mkResolvableExpression "justaname".data true).name = "justaname".data ∧
    (mkResolvableExpression "justaname".data true).operator = none := by
  have h1 := c5_expression_grammar.1 "name".data " ".data ">=".data " ".data
    "2.0".data true (by decide) (by decide) (by decide) (by decide) (by decide)
    (by decide) (by decide) (by decide) (fun h => absurd h (by decide))
  have h2 := c5_expression_grammar.2 "justaname".data true (by decide)
  have heq : "name".data ++ " ".data ++ ">=".data ++ " ".data ++ "2.0".data
      = "name >= 2.0".data := by decide
  rw [heq] at h1
  exact ⟨h1.1, h1.2.1, h1.2.2, h2.1, h2.2.1⟩

/-- **C2 counterexample.** The input `">=(y)"` ends with `)` and contains
`>=`, so the claim requires a compatibility floor to be extracted; but the
code's guard is `rfind('>=') > 0`, which fails for an occurrence at index 0,
so no floor is set (and the claimed clause stripping does not happen
either: an exact version is captured from the unstripped text instead). -/
theorem c2_compat_claim_cex :
    pyEndsWith ">=(y)".data [')'] = true ∧
    occurs2 '>' '=' ">=(y)".data = true ∧
    (mkResolvable ">=(y)".data).compatibleVersion = none ∧
    (mkResolvable ">=(y)".data).version = some "(y)".data := by
  refine ⟨by decide, by decide, by decide, by decide⟩

/-- **C2 (amended).** For every text that ends with `)`, contains `(`, and
contains `>=` at some index ≥ 1: writing the text as `a ++ ">=" ++ b` with
no further `>=` inside `b` (the last occurrence) and as `c ++ "(" ++ d`
with no further `(` inside `d` (the last occurrence), the parser sets
compatibleVersionFloor to the trimmed text strictly between the last `>=`
and the final `)`, and the working text handed to the name/version match is
the text before the last `(`, right-stripped; in particular, parsing
`"name (compatible >= X)"` yields compatibleVersionFloor `"X"` with
exactVersion unset. -/
theorem c2_compat_clause_amended :
    (∀ (a b c d : Str),
      a ≠ [] → (∃ b', b = b' ++ [')']) →
      occurs2 '>' '=' b = false →
      a ++ '>' :: '=' :: b = c ++ '(' :: d →
      '(' ∉ d →
      (mkResolvable (a ++ '>' :: '=' :: b)).compatibleVersion
          = some (pyStrip b.dropLast) ∧
      compatSplit (a ++ '>' :: '=' :: b)
          = (some (pyStrip b.dropLast), pyRStrip c)) ∧
    mkResolvable "name (compatible >= X)".data
      = ⟨"name".data, none, some "X".data⟩ := by
  constructor
  · intro a b c d ha hb hnb heq hd
    have hcs := compatSplit_pos ha hb hnb heq hd
    refine ⟨?_, hcs⟩
    unfold mkResolvable
    rw [hcs]
    split <;> rfl
  · decide

theorem c2_compat_clause_amended_witness :
    (mkResolvable "name (compatible >= X)".data).compatibleVersion
      = some "X".data ∧
    compatSplit "name (compatible >= X)".data
      = (some "X".data, "name".data) := by
  have h := c2_compat_clause_amended.1 "name (compatible ".data " X)".data
    "name ".data "compatible >= X)".data (by decide) ⟨" X".data, by decide⟩
    (by decide) (by decide) (by decide)
  have heq : "name (compatible ".data ++ '>' :: '=' :: " X)".data
      = "name (compatible >= X)".data := by decide
  have hstrip : pyStrip (" X)".data.dropLast) = "X".data := by decide
  have hrstrip : pyRStrip "name ".data = "name".data := by decide
  rw [heq, hstrip, hrstrip] at h
  exact h

/-- **C6 counterexample.** `"n = a>=b)"` has the claimed shape — name `"n"`
(no whitespace or `=`), one `" = "`, version `"a>=b)"` (no whitespace) —
but the version ends with `)` and contains `>=`, so the parse takes the
compatibility branch and render yields `"n = a>=b (compatible >= b)"`,
which differs from the input even after whitespace normalization. -/
theorem c6_roundtrip_cex :
    resolvableStr (mkResolvable "n = a>=b)".data)
      = "n = a>=b (compatible >= b)".data ∧
    wsNormalize (resolvableStr (mkResolvable "n = a>=b)".data))
      ≠ wsNormalize "n = a>=b)".data := by
  constructor <;> decide

/-- **C6 (amended).** For every string `name ++ " = " ++ version` with
`name` non-empty without whitespace or `=` and `version` non-empty without
whitespace, parse followed by render returns exactly the input string —
provided the version does not both end with `)` and contain `>=` (in that
excluded case the compatibility branch fires and the round trip fails, see
the counterexample). -/
theorem c6_roundtrip_amended (n v : Str)
    (hn : n ≠ []) (hnc : ∀ c ∈ n, isNameChar c = true)
    (hv : v ≠ []) (hvc : ∀ c ∈ v, isPySpace c = false)
    (hguard : pyEndsWith v [')'] = false ∨ occurs2 '>' '=' v = false) :
    resolvableStr (mkResolvable (n ++ ' ' :: '=' :: ' ' :: v))
      = n ++ ' ' :: '=' :: ' ' :: v := by
  have hsplit : compatSplit (n ++ ' ' :: '=' :: ' ' :: v)
      = (none, n ++ ' ' :: '=' :: ' ' :: v) := by
    apply compatSplit_eq_id
    rcases hguard with h | h
    · left
      have hre : n ++ ' ' :: '=' :: ' ' :: v = (n ++ [' ', '=', ' ']) ++ v := by
        simp
      rw [hre]
      by_cases hc : pyEndsWith ((n ++ [' ', '=', ' ']) ++ v) [')'] = true
      · have := pyEndsWith_char_of_append hv hc
        rw [this] at h
        cases h
      · simpa using hc
    · right
      have hnn : '=' ∉ n := by
        intro hm
        have hx := hnc '=' hm
        simp [isNameChar] at hx
      have hocc := occurs2_sep hnn h
      have := rfind2_eq_neg hocc
      omega
  have hmatch := matchResolvable_structured hn hnc hv hvc
  rw [mkResolvable_eq hsplit hmatch]
  unfold resolvableStr
  simp [hv]

theorem c6_roundtrip_amended_witness :
    resolvableStr (mkResolvable ("abc".data ++ ' ' :: '=' :: ' ' :: "1.0".data))
      = "abc".data ++ ' ' :: '=' :: ' ' :: "1.0".data :=
  c6_roundtrip_amended "abc".data "1.0".data (by decide) (by decide) (by decide)
    (by decide) (Or.inl (by decide))

/-- **C10 counterexample.** `"f=oo base"` contains no operator character
after its first whitespace-delimited token (`"f=oo"`) and ends with
`" base"`; the claim predicts name = the whole input with operator unset,
but the regex matches inside the first token, producing name `"f"`,
operator `"="`, version `"oo"`. -/
theorem c10_trailing_base_cex :
    (mkResolvableExpression "f=oo base".data false)
      = ⟨"f".data, some "=".data, some "oo".data, true⟩ ∧
    "f".data ≠ "f=oo base".data := by
  constructor <;> decide

/-- **C10 (amended).** For every input containing no operator character
from `=!<>` anywhere and ending with the literal `" base"`, parsing with
base detection enabled sets name to the entire input (including the
trailing `" base"`), leaves operator and version unset, and sets the base
flag; rendering such a constraint therefore yields the original string
followed by a second `" base"`. -/
theorem c10_trailing_base_amended (s : Str)
    (hop : ∀ c ∈ s, isOpChar c = false)
    (hbase : pyEndsWith s baseSuffix = true) :
    mkResolvableExpression s false = ⟨s, none, none, true⟩ ∧
    expressionStr (mkResolvableExpression s false) = s ++ baseSuffix := by
  have hnone := matchExpression_none_of_noOp hop
  have h1 : mkResolvableExpression s false = ⟨s, none, none, true⟩ := by
    rw [mkResolvableExpression_of_none hnone, hbase]
    rfl
  refine ⟨h1, ?_⟩
  rw [h1]
  unfold expressionStr
  simp

theorem c10_trailing_base_amended_witness :
    mkResolvableExpression "foo base".data false
      = ⟨"foo base".data, none, none, true⟩ ∧
    expressionStr (mkResolvableExpression "foo base".data false)
      = "foo base".data ++ baseSuffix :=
  c10_trailing_base_amended "foo base".data (by decide) (by decide)
